import Mathlib

/-!
Verification of the chess-bot vision pipeline (ChessBotCore).

This file gives a shallow embedding of the algorithmic core of the
repository — `OnnxModel::postprocess`/`OnnxModel::nms` and
`ChessboardAnalyzer::analyze`/`detectBoard`/`detectPieces`/
`getLargestDetection`/`toSquareNotation` together with
`ImageUtils::crop` — and proves properties of the embedded code.

Modelling conventions:
* C++ `int` arithmetic is modelled by `ℤ`; truncating C++ integer
  division is `Int.tdiv`.
* `float` values are modelled by `ℚ` (exact arithmetic); the single
  place where an IEEE NaN can arise (the 0/0 division in the IoU
  computation of `nms`) is modelled explicitly by its comparison
  behaviour (`NaN < t` is false).
* `cv::Mat` is modelled by its dimensions only, which is all the
  analysed code inspects.
* The C++ integer division by zero that `detectPieces` performs on
  boards narrower or shorter than 8 pixels is undefined behaviour; the
  embedding returns `none` there, and similarly for the out-of-range
  `std::vector::at` call (which throws).
-/

/-- Model of `cv::Rect` (integer coordinates: `x`, `y`, `width`, `height`). -/
structure Rect where
  x : ℤ
  y : ℤ
  w : ℤ
  h : ℤ
deriving DecidableEq

/-- Model of `cv::Rect::area()`: `width * height`. -/
def Rect.area (r : Rect) : ℤ := r.w * r.h

/-- Model of `cv::Rect::empty()`: `width <= 0 || height <= 0`. -/
def Rect.isDegenerate (r : Rect) : Bool := decide (r.w ≤ 0 ∨ r.h ≤ 0)

/-- Model of OpenCV `operator&` on `cv::Rect`: the intersection, with any
degenerate result normalised to the all-zero rectangle. -/
def Rect.inter (a b : Rect) : Rect :=
  if a.isDegenerate || b.isDegenerate then ⟨0, 0, 0, 0⟩
  else
    let x1 := max a.x b.x
    let y1 := max a.y b.y
    let w := min (a.x + a.w) (b.x + b.w) - x1
    let h := min (a.y + a.h) (b.y + b.h) - y1
    if w ≤ 0 ∨ h ≤ 0 then ⟨0, 0, 0, 0⟩ else ⟨x1, y1, w, h⟩

/-- Model of OpenCV `operator|` on `cv::Rect`: an empty operand is absorbed,
otherwise the bounding rectangle of the two. -/
def Rect.union (a b : Rect) : Rect :=
  if a.isDegenerate then b
  else if b.isDegenerate then a
  else
    let x1 := min a.x b.x
    let y1 := min a.y b.y
    ⟨x1, y1, max (a.x + a.w) (b.x + b.w) - x1, max (a.y + a.h) (b.y + b.h) - y1⟩

/-- Model of one detection (`struct Detection` in OnnxModel.h): bounding box,
confidence score, class id.  The class id is produced as a non-negative loop
index in `postprocess`, hence `ℕ`. -/
structure Detection where
  bbox : Rect
  score : ℚ
  classId : ℕ
deriving DecidableEq

/-- The survival test of one `nms` inner-loop iteration, from
`OnnxModel::nms`: the code computes
`iou = (a & b).area() / float((a | b).area())` and keeps the compared box
iff `iou < iouThresh`.  When the union area is zero the float division is
`0.0f / 0.0f = NaN`, and `NaN < iouThresh` is false, so the compared box is
dropped; this is modelled by the explicit zero test. -/
def iouLt (a b : Rect) (thresh : ℚ) : Bool :=
  let ua := (Rect.union a b).area
  if ua = 0 then false
  else decide ((((Rect.inter a b).area : ℚ) / (ua : ℚ)) < thresh)

/-- The `while (!idxs.empty())` loop of `OnnxModel::nms`: keep the first
(index of the highest-scoring remaining) box, drop every remaining box whose
IoU with it fails the `iou < iouThresh` test, repeat.  The loop strictly
shrinks the index list each iteration, so running it with fuel equal to the
initial list length is exact. -/
def nmsKeep (boxes : ℕ → Rect) (thresh : ℚ) : ℕ → List ℕ → List ℕ
  | _, [] => []
  | 0, _ :: _ => []
  | fuel + 1, idx :: rest =>
      idx :: nmsKeep boxes thresh fuel
        (rest.filter fun j => iouLt (boxes idx) (boxes j) thresh)

/-- The comparator of the `std::sort` call in `OnnxModel::nms`
(`scores[i] > scores[j]`), as the sortedness relation it establishes:
index `i` may precede index `j` iff `scores[j] <= scores[i]`. -/
def scoreDesc (scores : ℕ → ℚ) (i j : ℕ) : Prop := scores j ≤ scores i

instance (scores : ℕ → ℚ) : DecidableRel (scoreDesc scores) :=
  fun i j => inferInstanceAs (Decidable (scores j ≤ scores i))

instance (scores : ℕ → ℚ) : IsTotal ℕ (scoreDesc scores) :=
  ⟨fun i j => le_total (scores j) (scores i)⟩

instance (scores : ℕ → ℚ) : IsTrans ℕ (scoreDesc scores) :=
  ⟨fun _ _ _ h1 h2 => le_trans h2 h1⟩

/-- Model of `OnnxModel::nms`: boxes and scores are indexed `0, …, n-1`
(`std::iota`), the indices are sorted by score descending, and the greedy
suppression loop is run.  Returns the kept indices in pick order. -/
def nms (boxes : ℕ → Rect) (scores : ℕ → ℚ) (n : ℕ) (thresh : ℚ) : List ℕ :=
  nmsKeep boxes thresh n (List.insertionSort (scoreDesc scores) (List.range n))

/-- The per-class scoring loop of `OnnxModel::postprocess`: iterate the class
scores in ascending class order, keep `conf = objectness * classScore` and the
class index whenever `conf > bestClassScore`, starting from
`bestClassScore = 0.0f`, `classId = 0`.  `bestClassLoop conf n` processes
classes `0, …, n-1` and returns `(bestClassScore, classId)`. -/
def bestClassLoop (conf : ℕ → ℚ) : ℕ → ℚ × ℕ
  | 0 => (0, 0)
  | c + 1 =>
      let p := bestClassLoop conf c
      if p.1 < conf c then (conf c, c) else p

/-- The per-prediction filtering of `OnnxModel::postprocess` for prediction
`i` of an output tensor laid out as `numAttrs × numPreds`: reject when the
objectness (attribute 4) is below the confidence threshold; otherwise compute
the final score and class id (via the per-class loop when classes exist,
otherwise the objectness with class 0); keep iff the final score strictly
exceeds the confidence threshold. -/
def predSelect (output : ℕ → ℚ) (numPreds numClasses : ℕ) (confThresh : ℚ)
    (i : ℕ) : Option (ℚ × ℕ) :=
  let objectness := output (4 * numPreds + i)
  if objectness < confThresh then none
  else
    let fs :=
      if 0 < numClasses then
        bestClassLoop (fun c => objectness * output ((5 + c) * numPreds + i)) numClasses
      else (objectness, 0)
    if confThresh < fs.1 then some fs else none

/-- Model of `cv::Mat`: the analysed code only inspects dimensions
(`cols`, `rows`). -/
structure Mat where
  cols : ℤ
  rows : ℤ
deriving DecidableEq

/-- Model of `cv::Mat::empty()` (no pixels).  `cv::Mat()` is `⟨0, 0⟩`. -/
def Mat.isEmpty (m : Mat) : Bool := decide (m.cols = 0 ∨ m.rows = 0)

/-- Model of `ImageUtils::crop`: intersect the requested rectangle with the
image bounds; if the intersection has non-positive width or height return the
empty image, otherwise the cropped (cloned) sub-image of those dimensions. -/
def crop (image : Mat) (roi : Rect) : Mat :=
  let safeRoi := Rect.inter roi ⟨0, 0, image.cols, image.rows⟩
  if safeRoi.w ≤ 0 ∨ safeRoi.h ≤ 0 then ⟨0, 0⟩ else ⟨safeRoi.w, safeRoi.h⟩

/-- The accumulator loop of `ChessboardAnalyzer::getLargestDetection`:
state is `(best, maxArea, found)`; a detection replaces the state iff its
bounding-box area (an `int` cast to `float`, modelled exactly in `ℚ`) is
strictly greater than `maxArea`. -/
def largestLoop (best : Detection) (maxArea : ℚ) (found : Bool) :
    List Detection → Detection × ℚ × Bool
  | [] => (best, maxArea, found)
  | d :: rest =>
      if maxArea < (d.bbox.area : ℚ) then largestLoop d (d.bbox.area : ℚ) true rest
      else largestLoop best maxArea found rest

/-- Model of `ChessboardAnalyzer::getLargestDetection`: run the loop from the
default-constructed detection, `maxArea = 0.0f`, `found = false`; return the
default detection when nothing was found. -/
def getLargestDetection (dets : List Detection) : Detection :=
  let r := largestLoop ⟨⟨0, 0, 0, 0⟩, 0, 0⟩ 0 false dets
  if r.2.2 then r.1 else ⟨⟨0, 0, 0, 0⟩, 0, 0⟩

/-- The `classNames_` vocabulary of ChessboardAnalyzer.h. -/
def classNames : List String :=
  ["wp", "wn", "wb", "wr", "wq", "wk", "bp", "bn", "bb", "br", "bq", "bk"]

/-- `cvRoundHalf s` rounds `s / 2` to the nearest integer with ties to even:
the value of `cv::saturate_cast<int>` (which uses `cvRound`, round-to-nearest-
even) applied to `(tl + br) * 0.5` in `detectPieces`, where `s = tl + br`. -/
def cvRoundHalf (s : ℤ) : ℤ :=
  if Int.emod s 2 = 0 then Int.ediv s 2
  else if Int.emod (Int.ediv s 2) 2 = 0 then Int.ediv s 2 else Int.ediv s 2 + 1

/-- The bounding-box centre computed in `detectPieces`:
`(detection.bbox.tl() + detection.bbox.br()) * 0.5` on integer `cv::Point`,
i.e. each coordinate of `tl + br` halved with `cvRound`. -/
def centerOf (r : Rect) : ℤ × ℤ :=
  (cvRoundHalf (r.x + (r.x + r.w)), cvRoundHalf (r.y + (r.y + r.h)))

/-- The grid mapping of `detectPieces` given the (already computed) square
sizes: `col = centerX / squareWidth`, `row = centerY / squareHeight`
(truncating `int` division), each clamped to `[0, 7]` via
`std::min(std::max(·, 0), 7)`. -/
def gridCell (sw sh cx cy : ℤ) : ℤ × ℤ :=
  (min (max (Int.tdiv cx sw) 0) 7, min (max (Int.tdiv cy sh) 0) 7)

/-- Model of `ChessboardAnalyzer::toSquareNotation`: the two-character string
`('a' + col)('8' - row)`. -/
def toAlgebraicSquare (col row : ℤ) : String :=
  ⟨[Char.ofNat (97 + col).toNat, Char.ofNat (56 - row).toNat]⟩

/-- Model of `struct PieceInfo`. -/
structure PieceInfo where
  name : String
  square : String
  gridPos : ℤ × ℤ
deriving DecidableEq

/-- The per-detection loop body of `ChessboardAnalyzer::detectPieces`: centre,
grid cell (clamped), class-name lookup (`classNames_.at` throws on an
out-of-range class id, modelled by `none`), square string.  `cols`/`rows` are
the board image dimensions. -/
def detectPiecesLoop (cols rows : ℤ) : List Detection → Option (List PieceInfo)
  | [] => some []
  | d :: rest =>
      match classNames.get? d.classId with
      | none => none
      | some name =>
          let c := centerOf d.bbox
          let cell := gridCell (Int.tdiv cols 8) (Int.tdiv rows 8) c.1 c.2
          (detectPiecesLoop cols rows rest).map
            (fun ps => ⟨name, toAlgebraicSquare cell.1 cell.2, cell⟩ :: ps)

/-- Model of `ChessboardAnalyzer::detectPieces`: run the piece detector on the
board image; with no detections return the empty list; otherwise map each
detection to the 8×8 grid.  `squareWidth = cols / 8` and
`squareHeight = rows / 8` truncate; if either is zero the C++ code divides by
zero (undefined behaviour), modelled by `none`. -/
def detectPieces (pieceDetect : Mat → List Detection) (boardImage : Mat) :
    Option (List PieceInfo) :=
  let dets := pieceDetect boardImage
  if dets.isEmpty then some []
  else
    if Int.tdiv boardImage.cols 8 = 0 ∨ Int.tdiv boardImage.rows 8 = 0 then none
    else detectPiecesLoop boardImage.cols boardImage.rows dets

/-- Model of `ChessboardAnalyzer::detectBoard`: run the board detector; with
no detections return `cv::Mat()`; otherwise crop the image to the largest
detection's bounding box. -/
def detectBoard (boardDetect : Mat → List Detection) (image : Mat) : Mat :=
  let dets := boardDetect image
  if dets.isEmpty then ⟨0, 0⟩
  else crop image (getLargestDetection dets).bbox

/-- Model of `struct AnalysisResult` (board image, pieces, success flag). -/
structure AnalysisResult where
  boardImage : Mat
  pieces : List PieceInfo
  success : Bool
deriving DecidableEq

/-- Model of `ChessboardAnalyzer::analyze`.  Note that the source never
assigns `result.success`, so the flag keeps its member-initialiser default
`false` on every path; the embedding reproduces this.  The `none` outcome
propagates the undefined behaviour modelled inside `detectPieces`. -/
def analyze (boardDetect pieceDetect : Mat → List Detection) (image : Mat) :
    Option AnalysisResult :=
  let boardImage := detectBoard boardDetect image
  if boardImage.isEmpty then some ⟨boardImage, [], false⟩
  else (detectPieces pieceDetect boardImage).map fun ps => ⟨boardImage, ps, false⟩

/-- Model configuration of one `OnnxModel` (the fields fixed at
construction that the analysed arithmetic depends on). -/
structure OnnxModelCfg where
  inputWidth : ℤ
  inputHeight : ℤ
  confidenceThreshold : ℚ
  nmsThreshold : ℚ
deriving DecidableEq

/-- C++ `float` → `int` conversion: truncation toward zero
(numerator divided by denominator with `Int.tdiv`, which truncates). -/
def floatToInt (q : ℚ) : ℤ := Int.tdiv q.num (q.den : ℤ)

/-- The configuration produced by `ChessboardAnalyzer`'s member-initialiser
call `boardDetector_("models/best.onnx", 0.5f, 0.5f)`: the two `0.5f`
arguments bind to the `int` parameters `inputWidth` and `inputHeight` of
`OnnxModel`'s constructor (and are truncated), while `confidenceThreshold`
and `nmsThreshold` take their declared defaults `0.5f` and `0.45f`. -/
def boardDetectorCfg : OnnxModelCfg :=
  ⟨floatToInt (1 / 2), floatToInt (1 / 2), 1 / 2, 9 / 20⟩

/-- The configuration of `pieceDetector_("models/piece_detector.onnx", 0.5f,
0.5f)`; same argument binding as `boardDetectorCfg`. -/
def pieceDetectorCfg : OnnxModelCfg :=
  ⟨floatToInt (1 / 2), floatToInt (1 / 2), 1 / 2, 9 / 20⟩

/-- The scale ratio computed by `OnnxModel::letterbox`:
`r = min(inputWidth / (float)width, inputHeight / (float)height)`. -/
def letterboxRatio (cfg : OnnxModelCfg) (width height : ℤ) : ℚ :=
  min ((cfg.inputWidth : ℚ) / (width : ℚ)) ((cfg.inputHeight : ℚ) / (height : ℚ))

/-! ### Helper lemmas -/

theorem listGetD_eq_get {α : Type} (l : List α) (d : α) (k : ℕ) (h : k < l.length) :
    l.getD k d = l.get ⟨k, h⟩ := by
  rw [List.getD_eq_get?, List.get?_eq_get h]
  rfl

/-! ### Claim theorems -/

/-- C7: for every `col` and `row` in `[0,7]`, the algebraic square string is
the file letter of code `'a' + col` followed by the rank digit of code
`'8' - row`; in particular the four corners give "a8", "h8", "a1", "h1". -/
theorem toAlgebraicSquare_spec (col row : ℤ) (hc0 : 0 ≤ col) (hc7 : col ≤ 7)
    (hr0 : 0 ≤ row) (hr7 : row ≤ 7) :
    (toAlgebraicSquare col row).data.map Char.toNat
        = [(97 + col).toNat, (56 - row).toNat] ∧
    toAlgebraicSquare 0 0 = "a8" ∧ toAlgebraicSquare 7 0 = "h8" ∧
    toAlgebraicSquare 0 7 = "a1" ∧ toAlgebraicSquare 7 7 = "h1" := by
  refine ⟨?_, by decide, by decide, by decide, by decide⟩
  interval_cases col <;> interval_cases row <;> decide

/-- Witness for C7 at `col = 3`, `row = 5` (square "d3"). -/
theorem toAlgebraicSquare_spec_witness :
    (toAlgebraicSquare 3 5).data.map Char.toNat
        = [((97 : ℤ) + 3).toNat, ((56 : ℤ) - 5).toNat] ∧
    toAlgebraicSquare 0 0 = "a8" ∧ toAlgebraicSquare 7 0 = "h8" ∧
    toAlgebraicSquare 0 7 = "a1" ∧ toAlgebraicSquare 7 7 = "h1" :=
  toAlgebraicSquare_spec 3 5 (by decide) (by decide) (by decide) (by decide)

/-- C10: the default `ChessboardAnalyzer` constructor passes the float
literals `0.5f` to the `int` parameters `inputWidth`/`inputHeight`, so both
detectors are configured with input size 0×0 (confidence threshold 0.5 and
NMS threshold 0.45 from defaults), and consequently the letterbox scale ratio
`r = min(0/w, 0/h)` is 0 for every positive-dimension image. -/
theorem default_ctor_zero_input_size :
    boardDetectorCfg = ⟨0, 0, 1 / 2, 9 / 20⟩ ∧
    pieceDetectorCfg = ⟨0, 0, 1 / 2, 9 / 20⟩ ∧
    ∀ w h : ℤ, 0 < w → 0 < h →
      letterboxRatio boardDetectorCfg w h = 0 ∧
      letterboxRatio pieceDetectorCfg w h = 0 := by
  have h0 : floatToInt (1 / 2) = 0 := by
    norm_num [floatToInt]
    decide
  have hb : boardDetectorCfg = ⟨0, 0, 1 / 2, 9 / 20⟩ := by
    unfold boardDetectorCfg; rw [h0]
  have hp : pieceDetectorCfg = ⟨0, 0, 1 / 2, 9 / 20⟩ := by
    unfold pieceDetectorCfg; rw [h0]
  refine ⟨hb, hp, fun w h _ _ => ?_⟩
  rw [hb, hp]
  simp [letterboxRatio]

/-- Witness for C10 at a 1920×1080 image. -/
theorem default_ctor_zero_input_size_witness :
    letterboxRatio boardDetectorCfg 1920 1080 = 0 ∧
    letterboxRatio pieceDetectorCfg 1920 1080 = 0 :=
  default_ctor_zero_input_size.2.2 1920 1080 (by decide) (by decide)

/-- C1 (failing input): a board detector that finds the whole 64×64 frame and
a piece detector that finds one piece.  `analyze` packages the cropped board
and the piece list, but the success flag is still `false`: the source never
assigns `result.success`, so the flag keeps its member-initialiser default on
every path, contradicting the claimed `success = true` on the board-found
path. -/
theorem analyze_success_stays_false :
    analyze (fun _ => [⟨⟨0, 0, 64, 64⟩, 9 / 10, 0⟩])
        (fun _ => [⟨⟨28, 28, 8, 8⟩, 4 / 5, 0⟩]) ⟨64, 64⟩
      = some ⟨⟨64, 64⟩, [⟨"wp", "e4", (4, 4)⟩], false⟩ := by decide

/-- C2: if the board detector returns no detections, `analyze` returns an
empty-board result with an empty piece list and `success = false`, and the
result does not depend on the piece detector at all (it is never invoked). -/
theorem analyze_short_circuit (boardDetect pieceDetect pieceDetect' : Mat → List Detection)
    (image : Mat) (h : boardDetect image = []) :
    analyze boardDetect pieceDetect image = some ⟨⟨0, 0⟩, [], false⟩ ∧
    analyze boardDetect pieceDetect image = analyze boardDetect pieceDetect' image := by
  have hb : detectBoard boardDetect image = ⟨0, 0⟩ := by simp [detectBoard, h]
  constructor <;> simp [analyze, hb, Mat.isEmpty]

/-- Witness for C2: an always-empty board detector on a 100×50 image, with
two different piece detectors. -/
theorem analyze_short_circuit_witness :
    analyze (fun _ => []) (fun _ => [⟨⟨0, 0, 2, 2⟩, 1, 0⟩]) ⟨100, 50⟩
        = some ⟨⟨0, 0⟩, [], false⟩ ∧
    analyze (fun _ => []) (fun _ => [⟨⟨0, 0, 2, 2⟩, 1, 0⟩]) ⟨100, 50⟩
        = analyze (fun _ => []) (fun _ => []) ⟨100, 50⟩ :=
  analyze_short_circuit _ _ _ _ rfl

/-- C3 (amended): in the NMS overlap computation the division is NOT guarded:
when both compared rectangles are degenerate the union area is zero, the
float division yields NaN, the `NaN < iouThresh` comparison is false and the
compared box is suppressed.  A rectangle of zero or negative area still
contributes zero intersection, so when the union is non-degenerate the IoU is
0 and the compared box survives (for any positive threshold). -/
theorem iou_degenerate_behaviour (a b : Rect) (thresh : ℚ) :
    ((Rect.union a b).area = 0 → iouLt a b thresh = false) ∧
    (a.area ≤ 0 →
      (Rect.inter a b).area = 0 ∧
      ((Rect.union a b).area ≠ 0 → 0 < thresh → iouLt a b thresh = true)) := by
  constructor
  · intro h
    simp [iouLt, h]
  · intro ha
    have hdeg : a.isDegenerate = true := by
      simp only [Rect.isDegenerate, decide_eq_true_eq]
      by_contra hc
      push_neg at hc
      exact absurd (mul_pos hc.1 hc.2) (not_lt.mpr ha)
    have hint : Rect.inter a b = ⟨0, 0, 0, 0⟩ := by
      simp [Rect.inter, hdeg]
    refine ⟨by simp [hint, Rect.area], fun hu ht => ?_⟩
    simp only [iouLt, hint]
    rw [if_neg hu]
    have h0 : ((Rect.area ⟨0, 0, 0, 0⟩ : ℤ) : ℚ) = 0 := by norm_num [Rect.area]
    rw [h0, zero_div]
    simpa using ht

/-- Witness for C3 (amended) at a degenerate-degenerate pair (suppression)
and a degenerate-vs-real pair (zero overlap, survival). -/
theorem iou_degenerate_behaviour_witness :
    iouLt ⟨0, 0, 0, 0⟩ ⟨0, 0, 0, 0⟩ 1 = false ∧
    Rect.area (Rect.inter ⟨0, 0, 0, 3⟩ ⟨0, 0, 5, 5⟩) = 0 ∧
    iouLt ⟨0, 0, 0, 3⟩ ⟨0, 0, 5, 5⟩ 1 = true :=
  ⟨(iou_degenerate_behaviour ⟨0, 0, 0, 0⟩ ⟨0, 0, 0, 0⟩ 1).1 (by decide),
   ((iou_degenerate_behaviour ⟨0, 0, 0, 3⟩ ⟨0, 0, 5, 5⟩ 1).2 (by decide)).1,
   ((iou_degenerate_behaviour ⟨0, 0, 0, 3⟩ ⟨0, 0, 5, 5⟩ 1).2 (by decide)).2
     (by decide) (by decide)⟩

/-- Counterexample to C3 as stated: two degenerate boxes (IoU division 0/0).
The claim says the compared box survives; in fact the full NMS run keeps only
the higher-scoring box and suppresses the other, because the survival test
`iou < thresh` is false on the NaN quotient. -/
theorem nms_degenerate_pair_suppressed :
    nms (fun _ => ⟨0, 0, 0, 0⟩) (fun k => if k = 0 then 2 else 1) 2 (9 / 20) = [0] ∧
    iouLt ⟨0, 0, 0, 0⟩ ⟨0, 0, 0, 0⟩ (9 / 20) = false := by decide

/-- Invariant of the `getLargestDetection` accumulator loop: either no
element beats the incoming `maxArea` and the state passes through unchanged,
or the loop returns the first element attaining the maximum area (which
strictly exceeds the incoming `maxArea`, strictly exceeds every earlier
element, and dominates all elements). -/
theorem largestLoop_spec :
    ∀ (l : List Detection) (best : Detection) (a : ℚ) (f : Bool),
      (largestLoop best a f l = (best, a, f) ∧ ∀ d ∈ l, (d.bbox.area : ℚ) ≤ a) ∨
      (∃ i, ∃ hi : i < l.length,
        largestLoop best a f l = (l.get ⟨i, hi⟩, ((l.get ⟨i, hi⟩).bbox.area : ℚ), true) ∧
        a < ((l.get ⟨i, hi⟩).bbox.area : ℚ) ∧
        (∀ j, ∀ hj : j < l.length, j < i →
          ((l.get ⟨j, hj⟩).bbox.area : ℚ) < ((l.get ⟨i, hi⟩).bbox.area : ℚ)) ∧
        (∀ j, ∀ hj : j < l.length,
          ((l.get ⟨j, hj⟩).bbox.area : ℚ) ≤ ((l.get ⟨i, hi⟩).bbox.area : ℚ))) := by
  intro l
  induction l with
  | nil => intro best a f; exact Or.inl ⟨rfl, by simp⟩
  | cons d rest ih =>
    intro best a f
    by_cases h : a < (d.bbox.area : ℚ)
    · rcases ih d (d.bbox.area : ℚ) true with ⟨heq, hall⟩ | ⟨i, hi, heq, hgt, hstr, hle⟩
      · refine Or.inr ⟨0, Nat.succ_pos _, ?_, h, ?_, ?_⟩
        · simp only [largestLoop, if_pos h]
          exact heq
        · intro j hj hj0; omega
        · intro j hj
          cases j with
          | zero => exact le_refl _
          | succ j' => exact hall _ (List.get_mem rest j' (Nat.lt_of_succ_lt_succ hj))
      · refine Or.inr ⟨i + 1, Nat.succ_lt_succ hi, ?_, lt_trans h hgt, ?_, ?_⟩
        · simp only [largestLoop, if_pos h]
          exact heq
        · intro j hj hj1
          cases j with
          | zero => exact hgt
          | succ j' => exact hstr j' (Nat.lt_of_succ_lt_succ hj) (Nat.lt_of_succ_lt_succ hj1)
        · intro j hj
          cases j with
          | zero => exact le_of_lt hgt
          | succ j' => exact hle j' (Nat.lt_of_succ_lt_succ hj)
    · rcases ih best a f with ⟨heq, hall⟩ | ⟨i, hi, heq, hgt, hstr, hle⟩
      · refine Or.inl ⟨?_, ?_⟩
        · simp only [largestLoop, if_neg h]
          exact heq
        · intro d' hd'
          rcases List.mem_cons.mp hd' with rfl | hmem
          · exact not_lt.mp h
          · exact hall d' hmem
      · refine Or.inr ⟨i + 1, Nat.succ_lt_succ hi, ?_, hgt, ?_, ?_⟩
        · simp only [largestLoop, if_neg h]
          exact heq
        · intro j hj hj1
          cases j with
          | zero => exact lt_of_le_of_lt (not_lt.mp h) hgt
          | succ j' => exact hstr j' (Nat.lt_of_succ_lt_succ hj) (Nat.lt_of_succ_lt_succ hj1)
        · intro j hj
          cases j with
          | zero => exact le_trans (not_lt.mp h) (le_of_lt hgt)
          | succ j' => exact hle j' (Nat.lt_of_succ_lt_succ hj)

/-- C9 (amended): for every detection list containing at least one detection
of positive bounding-box area, the selected board is the first detection in
input order attaining the maximal area: every detection's area is dominated
by it and every strictly earlier detection has strictly smaller area (the
scan keeps the first box encountered with strictly greater area and never
reorders on exact ties). -/
theorem getLargestDetection_first_max (dets : List Detection)
    (hpos : ∃ d ∈ dets, 0 < d.bbox.area) :
    ∃ i, ∃ hi : i < dets.length,
      getLargestDetection dets = dets.get ⟨i, hi⟩ ∧
      (∀ j, ∀ hj : j < dets.length,
        (dets.get ⟨j, hj⟩).bbox.area ≤ (dets.get ⟨i, hi⟩).bbox.area) ∧
      (∀ j, ∀ hj : j < dets.length, j < i →
        (dets.get ⟨j, hj⟩).bbox.area < (dets.get ⟨i, hi⟩).bbox.area) := by
  rcases largestLoop_spec dets ⟨⟨0, 0, 0, 0⟩, 0, 0⟩ 0 false with
    ⟨_, hall⟩ | ⟨i, hi, heq, _, hstr, hle⟩
  · exfalso
    rcases hpos with ⟨d, hd, hdpos⟩
    have h1 := hall d hd
    have h2 : (0 : ℚ) < (d.bbox.area : ℚ) := by exact_mod_cast hdpos
    linarith
  · refine ⟨i, hi, ?_, ?_, ?_⟩
    · simp [getLargestDetection, heq]
    · intro j hj; exact_mod_cast hle j hj
    · intro j hj hji; exact_mod_cast hstr j hj hji

/-- Witness for C9 (amended) on a two-element list with an exact area tie
(areas 6 and 6): the first detection is selected. -/
theorem getLargestDetection_first_max_witness :
    ∃ i, ∃ hi : i < ([⟨⟨0, 0, 2, 3⟩, 1, 4⟩, ⟨⟨1, 1, 2, 3⟩, 2, 5⟩] : List Detection).length,
      getLargestDetection [⟨⟨0, 0, 2, 3⟩, 1, 4⟩, ⟨⟨1, 1, 2, 3⟩, 2, 5⟩]
          = ([⟨⟨0, 0, 2, 3⟩, 1, 4⟩, ⟨⟨1, 1, 2, 3⟩, 2, 5⟩] : List Detection).get ⟨i, hi⟩ ∧
      (∀ j, ∀ hj : j < ([⟨⟨0, 0, 2, 3⟩, 1, 4⟩, ⟨⟨1, 1, 2, 3⟩, 2, 5⟩] : List Detection).length,
        (([⟨⟨0, 0, 2, 3⟩, 1, 4⟩, ⟨⟨1, 1, 2, 3⟩, 2, 5⟩] : List Detection).get ⟨j, hj⟩).bbox.area
          ≤ (([⟨⟨0, 0, 2, 3⟩, 1, 4⟩, ⟨⟨1, 1, 2, 3⟩, 2, 5⟩] : List Detection).get ⟨i, hi⟩).bbox.area) ∧
      (∀ j, ∀ hj : j < ([⟨⟨0, 0, 2, 3⟩, 1, 4⟩, ⟨⟨1, 1, 2, 3⟩, 2, 5⟩] : List Detection).length, j < i →
        (([⟨⟨0, 0, 2, 3⟩, 1, 4⟩, ⟨⟨1, 1, 2, 3⟩, 2, 5⟩] : List Detection).get ⟨j, hj⟩).bbox.area
          < (([⟨⟨0, 0, 2, 3⟩, 1, 4⟩, ⟨⟨1, 1, 2, 3⟩, 2, 5⟩] : List Detection).get ⟨i, hi⟩).bbox.area) :=
  getLargestDetection_first_max _ ⟨⟨⟨0, 0, 2, 3⟩, 1, 4⟩, by simp, by decide⟩

/-- Counterexample to C9 as stated: a non-empty list whose single detection
has a zero-area bounding box.  Because the scan starts from `maxArea = 0`
with a strict comparison, nothing is ever selected and the function returns
the default-constructed detection, which is not the (unique, hence largest)
detection of the list. -/
theorem getLargestDetection_degenerate_cex :
    getLargestDetection [⟨⟨3, 4, 0, 5⟩, 2, 7⟩] = ⟨⟨0, 0, 0, 0⟩, 0, 0⟩ ∧
    (⟨⟨0, 0, 0, 0⟩, 0, 0⟩ : Detection) ≠ ⟨⟨3, 4, 0, 5⟩, 2, 7⟩ := by decide

/-- Invariant of the per-class scoring loop: the running best is always
non-negative (it starts at 0) and dominates every class product seen so far;
and either it is still the initial `(0, 0)` state, or it equals the product
of its class id, which is the first class attaining it (every earlier class
is strictly smaller). -/
theorem bestClassLoop_spec (conf : ℕ → ℚ) :
    ∀ n : ℕ,
      0 ≤ (bestClassLoop conf n).1 ∧
      (∀ c, c < n → conf c ≤ (bestClassLoop conf n).1) ∧
      (((bestClassLoop conf n).1 = 0 ∧ (bestClassLoop conf n).2 = 0) ∨
        ((bestClassLoop conf n).2 < n ∧
         conf (bestClassLoop conf n).2 = (bestClassLoop conf n).1 ∧
         ∀ c, c < (bestClassLoop conf n).2 → conf c < (bestClassLoop conf n).1)) := by
  intro n
  induction n with
  | zero => exact ⟨le_refl 0, fun c hc => absurd hc (Nat.not_lt_zero c), Or.inl ⟨rfl, rfl⟩⟩
  | succ m ih =>
    rcases ih with ⟨hnn, hdom, hcase⟩
    by_cases h : (bestClassLoop conf m).1 < conf m
    · have hm : bestClassLoop conf (m + 1) = (conf m, m) := by
        simp only [bestClassLoop, if_pos h]
      rw [hm]
      refine ⟨le_of_lt (lt_of_le_of_lt hnn h), ?_, Or.inr ⟨Nat.lt_succ_self m, rfl, ?_⟩⟩
      · intro c hc
        rcases Nat.lt_succ_iff_lt_or_eq.mp hc with hc' | rfl
        · exact le_of_lt (lt_of_le_of_lt (hdom c hc') h)
        · exact le_refl _
      · intro c hc
        exact lt_of_le_of_lt (hdom c hc) h
    · have hm : bestClassLoop conf (m + 1) = bestClassLoop conf m := by
        simp only [bestClassLoop, if_neg h]
      rw [hm]
      refine ⟨hnn, ?_, ?_⟩
      · intro c hc
        rcases Nat.lt_succ_iff_lt_or_eq.mp hc with hc' | rfl
        · exact hdom c hc'
        · exact not_lt.mp h
      · rcases hcase with hzero | ⟨hlt, heq, hstr⟩
        · exact Or.inl hzero
        · exact Or.inr ⟨Nat.lt_succ_of_lt hlt, heq, hstr⟩

/-- C8 (amended): per-prediction filtering of `postprocess`.  A prediction
whose objectness is below the confidence threshold is discarded immediately.
Without class scores, it is kept (with the objectness as final score and
class 0) iff the objectness strictly exceeds the threshold.  With class
scores, the final score is the maximum of 0 and the per-class products
`objectness × classScore` (the running best starts at 0); whenever that
maximum is positive it equals the maximal product and the class id is its
lowest-index achiever (ties broken by the strict-greater comparison); the
prediction is kept iff the final score strictly exceeds the threshold. -/
theorem predSelect_spec (output : ℕ → ℚ) (numPreds numClasses i : ℕ) (thresh : ℚ) :
    (output (4 * numPreds + i) < thresh →
      predSelect output numPreds numClasses thresh i = none) ∧
    (¬ output (4 * numPreds + i) < thresh → numClasses = 0 →
      predSelect output numPreds numClasses thresh i =
        if thresh < output (4 * numPreds + i) then some (output (4 * numPreds + i), 0)
        else none) ∧
    (¬ output (4 * numPreds + i) < thresh → 0 < numClasses →
      ∃ fs cid,
        bestClassLoop
            (fun c => output (4 * numPreds + i) * output ((5 + c) * numPreds + i))
            numClasses = (fs, cid) ∧
        0 ≤ fs ∧
        (∀ c, c < numClasses →
          output (4 * numPreds + i) * output ((5 + c) * numPreds + i) ≤ fs) ∧
        (0 < fs →
          cid < numClasses ∧
          output (4 * numPreds + i) * output ((5 + cid) * numPreds + i) = fs ∧
          ∀ c, c < cid →
            output (4 * numPreds + i) * output ((5 + c) * numPreds + i) < fs) ∧
        predSelect output numPreds numClasses thresh i =
          (if thresh < fs then some (fs, cid) else none)) := by
  refine ⟨fun h => ?_, fun h h0 => ?_, fun h h0 => ?_⟩
  · simp only [predSelect, if_pos h]
  · simp only [predSelect, if_neg h, h0, lt_irrefl, if_false]
  · rcases bestClassLoop_spec
      (fun c => output (4 * numPreds + i) * output ((5 + c) * numPreds + i)) numClasses with
      ⟨hnn, hdom, hcase⟩
    refine ⟨_, _, rfl, hnn, hdom, fun hpos => ?_, ?_⟩
    · rcases hcase with ⟨hz, _⟩ | ⟨hlt, heq, hstr⟩
      · rw [hz] at hpos
        exact absurd hpos (lt_irrefl 0)
      · exact ⟨hlt, heq, hstr⟩
    · simp only [predSelect, if_neg h, if_pos h0]

/-- Witness for C8 at a prediction whose objectness 0 lies below the
threshold 1/2: discarded immediately. -/
theorem predSelect_spec_witness :
    predSelect (fun _ => (0 : ℚ)) 1 1 (1 / 2) 0 = none :=
  (predSelect_spec (fun _ => (0 : ℚ)) 1 1 0 (1 / 2)).1 (by norm_num)

/-- Counterexample to C8 as stated: one class whose product
`objectness × classScore` is negative (objectness −1, class score 1,
threshold −2).  The claim says the final score is the maximum over classes of
the products, i.e. −1; but the running best starts at `0.0f` and the strict
comparison never fires, so the prediction is kept with final score 0 (which
no class attains) and class id 0. -/
theorem predSelect_zero_floor_cex :
    predSelect (fun n => if n = 4 then (-1 : ℚ) else 1) 1 1 (-2) 0 = some (0, 0) ∧
    (fun n => if n = 4 then (-1 : ℚ) else 1) (4 * 1 + 0) *
        (fun n => if n = 4 then (-1 : ℚ) else 1) ((5 + 0) * 1 + 0) = -1 ∧
    (0 : ℚ) ≠ -1 := by
  refine ⟨?_, by norm_num, by norm_num⟩
  have hb : bestClassLoop (fun c => if 5 + c = 4 then (1 : ℚ) else -1) 1 = (0, 0) := by
    simp only [bestClassLoop]
    norm_num
  simp only [predSelect]
  norm_num [hb, Prod.ext_iff]

/-- The clamped grid coordinates always lie in `[0,7] × [0,7]`. -/
theorem gridCell_range (sw sh cx cy : ℤ) :
    0 ≤ (gridCell sw sh cx cy).1 ∧ (gridCell sw sh cx cy).1 ≤ 7 ∧
    0 ≤ (gridCell sw sh cx cy).2 ∧ (gridCell sw sh cx cy).2 ≤ 7 :=
  ⟨le_min (le_max_right _ _) (by norm_num), min_le_right _ _,
   le_min (le_max_right _ _) (by norm_num), min_le_right _ _⟩

/-- One-dimensional corner fact: for a board dimension `W ≥ 8`, the centre
coordinate `W - 1` lands in clamped cell 7 of the 8-cell grid with square
size `W / 8` (truncating). -/
theorem gridCell_corner_coord (W : ℤ) (hW : 8 ≤ W) :
    min (max (Int.tdiv (W - 1) (Int.tdiv W 8)) 0) 7 = 7 := by
  have hq : Int.tdiv W 8 = W / 8 := Int.tdiv_eq_ediv (by omega) (by norm_num)
  have h8q : W / 8 * 8 ≤ W := Int.ediv_mul_le W (by norm_num)
  have hq1 : 1 ≤ W / 8 := by
    rw [Int.le_ediv_iff_mul_le (by norm_num : (0 : ℤ) < 8)]
    omega
  have hmain : 7 ≤ Int.tdiv (W - 1) (Int.tdiv W 8) := by
    rw [hq, Int.tdiv_eq_ediv (by omega) (by omega)]
    rw [Int.le_ediv_iff_mul_le (by omega : (0 : ℤ) < W / 8)]
    omega
  rw [max_eq_left (le_trans (by norm_num) hmain), min_eq_right hmain]

/-- Every piece produced by the `detectPieces` loop carries a grid position
of the form `gridCell (cols/8) (rows/8) cx cy` for some centre `(cx, cy)`. -/
theorem detectPiecesLoop_gridPos (cols rows : ℤ) :
    ∀ (dets : List Detection) (l : List PieceInfo),
      detectPiecesLoop cols rows dets = some l →
      ∀ p ∈ l, ∃ cx cy,
        p.gridPos = gridCell (Int.tdiv cols 8) (Int.tdiv rows 8) cx cy := by
  intro dets
  induction dets with
  | nil =>
    intro l hl p hp
    simp only [detectPiecesLoop, Option.some.injEq] at hl
    rw [← hl] at hp
    exact absurd hp (List.not_mem_nil p)
  | cons d rest ih =>
    intro l hl p hp
    simp only [detectPiecesLoop] at hl
    rcases hname : classNames.get? d.classId with _ | name
    · rw [hname] at hl
      exact absurd hl (by simp)
    · rw [hname] at hl
      rcases Option.map_eq_some'.mp hl with ⟨ps, hps, hl'⟩
      rw [← hl'] at hp
      rcases List.mem_cons.mp hp with rfl | hmem
      · exact ⟨(centerOf d.bbox).1, (centerOf d.bbox).2, rfl⟩
      · exact ih ps hps p hmem

/-- C6 (amended): for every cropped board image at least 8 pixels wide and
tall on which the `detectPieces` mapping is defined, every produced grid
coordinate lies in `[0,7] × [0,7]` (clamped), and a detection whose
bounding-box centre is at pixel `(boardWidth - 1, boardHeight - 1)` maps to
column 7, row 7. -/
theorem detectPieces_grid_clamp (pieceDetect : Mat → List Detection) (board : Mat)
    (l : List PieceInfo) (hw : 8 ≤ board.cols) (hh : 8 ≤ board.rows)
    (hl : detectPieces pieceDetect board = some l) :
    (∀ p ∈ l, 0 ≤ p.gridPos.1 ∧ p.gridPos.1 ≤ 7 ∧
      0 ≤ p.gridPos.2 ∧ p.gridPos.2 ≤ 7) ∧
    gridCell (Int.tdiv board.cols 8) (Int.tdiv board.rows 8)
        (board.cols - 1) (board.rows - 1) = (7, 7) := by
  constructor
  · intro p hp
    simp only [detectPieces] at hl
    by_cases hempty : (pieceDetect board).isEmpty
    · rw [if_pos hempty, Option.some.injEq] at hl
      rw [← hl] at hp
      exact absurd hp (List.not_mem_nil p)
    · rw [if_neg hempty] at hl
      by_cases hzero : Int.tdiv board.cols 8 = 0 ∨ Int.tdiv board.rows 8 = 0
      · rw [if_pos hzero] at hl
        exact absurd hl (by simp)
      · rw [if_neg hzero] at hl
        rcases detectPiecesLoop_gridPos board.cols board.rows (pieceDetect board) l hl p hp
          with ⟨cx, cy, hpos⟩
        rw [hpos]
        exact gridCell_range _ _ _ _
  · have h1 := gridCell_corner_coord board.cols hw
    have h2 := gridCell_corner_coord board.rows hh
    simp only [gridCell, h1, h2]

/-- Witness for C6 (amended): a 64×64 board with one piece detection whose
box has corners (10,10)–(14,14); its centre (12,12) lands in cell (1,1)
("b7"), in range, and the corner pixel (63,63) maps to cell (7,7). -/
theorem detectPieces_grid_clamp_witness :
    (∀ p ∈ ([⟨"wp", "b7", (1, 1)⟩] : List PieceInfo),
      0 ≤ p.gridPos.1 ∧ p.gridPos.1 ≤ 7 ∧ 0 ≤ p.gridPos.2 ∧ p.gridPos.2 ≤ 7) ∧
    gridCell (Int.tdiv (64 : ℤ) 8) (Int.tdiv (64 : ℤ) 8) (64 - 1) (64 - 1) = (7, 7) :=
  detectPieces_grid_clamp (fun _ => [⟨⟨10, 10, 4, 4⟩, 1, 0⟩]) ⟨64, 64⟩
    [⟨"wp", "b7", (1, 1)⟩] (by decide) (by decide) (by decide)

/-- Counterexample to C6 as stated ("regardless of board size"): a 7×7
cropped board.  The square size `7 / 8` truncates to zero and the C++ code
performs an integer division by zero (undefined behaviour; the embedding
yields no result), so a detection centred at the corner pixel (6,6) is not
mapped to column 7, row 7. -/
theorem detectPieces_small_board_cex :
    centerOf ⟨5, 5, 2, 2⟩ = (6, 6) ∧
    detectPieces (fun _ => [⟨⟨5, 5, 2, 2⟩, 1, 0⟩]) ⟨7, 7⟩ = none := by decide

/-- C4: two-box characterisation of the greedy, class-agnostic NMS.  For two
boxes with distinct scores (and a non-degenerate union, so the IoU is an
actual number), the indices are sorted by score descending; when the IoU is
at or above the threshold only the higher-scoring box survives, and when it
is strictly below the threshold both survive. -/
theorem nms_two_box_monotone (b0 b1 : Rect) (s0 s1 thresh : ℚ) (hs : s1 < s0)
    (hua : (Rect.union b0 b1).area ≠ 0) :
    (thresh ≤ ((Rect.inter b0 b1).area : ℚ) / ((Rect.union b0 b1).area : ℚ) →
      nms (fun k => if k = 0 then b0 else b1)
        (fun k => if k = 0 then s0 else s1) 2 thresh = [0]) ∧
    (((Rect.inter b0 b1).area : ℚ) / ((Rect.union b0 b1).area : ℚ) < thresh →
      nms (fun k => if k = 0 then b0 else b1)
        (fun k => if k = 0 then s0 else s1) 2 thresh = [0, 1]) := by
  have hsort : List.insertionSort (scoreDesc fun k => if k = 0 then s0 else s1)
      (List.range 2) = [0, 1] := by
    rw [show List.range 2 = [0, 1] from rfl]
    simp only [List.insertionSort, List.orderedInsert]
    rw [if_pos]
    show (if (1 : ℕ) = 0 then s0 else s1) ≤ (if (0 : ℕ) = 0 then s0 else s1)
    simpa using le_of_lt hs
  constructor
  · intro hiou
    have hio : iouLt b0 b1 thresh = false := by
      simp only [iouLt]
      rw [if_neg hua]
      simpa using not_lt.mpr hiou
    simp only [nms, hsort, nmsKeep]
    simp [hio, nmsKeep]
  · intro hiou
    have hio : iouLt b0 b1 thresh = true := by
      simp only [iouLt]
      rw [if_neg hua]
      simpa using hiou
    simp only [nms, hsort, nmsKeep]
    simp [hio, nmsKeep]

/-- Witness for C4: two identical 10×10 boxes (IoU 1 ≥ 1/2) keep only the
higher-scoring index 0, and two disjoint 10×10 boxes (IoU 0 < 1/2) both
survive. -/
theorem nms_two_box_monotone_witness :
    nms (fun k => if k = 0 then (⟨0, 0, 10, 10⟩ : Rect) else ⟨0, 0, 10, 10⟩)
        (fun k => if k = 0 then (2 : ℚ) else 1) 2 (1 / 2) = [0] ∧
    nms (fun k => if k = 0 then (⟨0, 0, 10, 10⟩ : Rect) else ⟨100, 100, 10, 10⟩)
        (fun k => if k = 0 then (2 : ℚ) else 1) 2 (1 / 2) = [0, 1] :=
  ⟨(nms_two_box_monotone ⟨0, 0, 10, 10⟩ ⟨0, 0, 10, 10⟩ 2 1 (1 / 2)
      (by norm_num) (by decide)).1 (by norm_num [Rect.inter, Rect.union, Rect.area, Rect.isDegenerate]),
   (nms_two_box_monotone ⟨0, 0, 10, 10⟩ ⟨100, 100, 10, 10⟩ 2 1 (1 / 2)
      (by norm_num) (by decide)).2 (by norm_num [Rect.inter, Rect.union, Rect.area, Rect.isDegenerate])⟩

/-- The suppression loop returns a sublist of its input index list. -/
theorem nmsKeep_sublist (boxes : ℕ → Rect) (thresh : ℚ) :
    ∀ (fuel : ℕ) (l : List ℕ), (nmsKeep boxes thresh fuel l).Sublist l
  | 0, [] => by simp [nmsKeep]
  | 0, _ :: _ => by simp [nmsKeep]
  | _ + 1, [] => by simp [nmsKeep]
  | fuel + 1, idx :: rest => by
      simp only [nmsKeep]
      exact List.Sublist.cons₂ idx
        ((nmsKeep_sublist boxes thresh fuel _).trans (List.filter_sublist rest))

/-- Any two indices kept by the suppression loop, in pick order, passed the
survival test against each other: the earlier one was the pivot when the
later one survived its filter. -/
theorem nmsKeep_pairwise (boxes : ℕ → Rect) (thresh : ℚ) :
    ∀ (fuel : ℕ) (l : List ℕ),
      (nmsKeep boxes thresh fuel l).Pairwise
        (fun i j => iouLt (boxes i) (boxes j) thresh = true)
  | 0, [] => by simp [nmsKeep]
  | 0, _ :: _ => by simp [nmsKeep]
  | _ + 1, [] => by simp [nmsKeep]
  | fuel + 1, idx :: rest => by
      simp only [nmsKeep]
      refine List.pairwise_cons.mpr ⟨fun j hj => ?_, nmsKeep_pairwise boxes thresh fuel _⟩
      exact @List.of_mem_filter ℕ (fun j => iouLt (boxes idx) (boxes j) thresh) j rest
        ((nmsKeep_sublist boxes thresh fuel _).subset hj)

/-- On an index list in which every ordered pair passes the survival test,
the suppression loop keeps everything (given enough fuel). -/
theorem nmsKeep_of_pairwise (boxes : ℕ → Rect) (thresh : ℚ) :
    ∀ (fuel : ℕ) (l : List ℕ), l.length ≤ fuel →
      l.Pairwise (fun i j => iouLt (boxes i) (boxes j) thresh = true) →
      nmsKeep boxes thresh fuel l = l
  | 0, [], _, _ => by simp [nmsKeep]
  | _ + 1, [], _, _ => by simp [nmsKeep]
  | 0, x :: xs, h, _ => by simp at h
  | fuel + 1, idx :: rest, h, hp => by
      rcases List.pairwise_cons.mp hp with ⟨h1, h2⟩
      have hf : rest.filter (fun j => iouLt (boxes idx) (boxes j) thresh) = rest :=
        List.filter_eq_self.mpr h1
      simp only [nmsKeep, hf]
      rw [nmsKeep_of_pairwise boxes thresh fuel rest (by simp at h; omega) h2]

/-- C5: NMS is idempotent.  Running the suppression on the survivors of a
first run (re-indexed `0, …, k-1` with their boxes and scores) keeps every
survivor, so translating the second run's kept indices back yields exactly
the first run's kept list — the same set of boxes. -/
theorem nms_idempotent (boxes : ℕ → Rect) (scores : ℕ → ℚ) (n : ℕ) (thresh : ℚ) :
    (nms (fun k => boxes ((nms boxes scores n thresh).getD k 0))
         (fun k => scores ((nms boxes scores n thresh).getD k 0))
         (nms boxes scores n thresh).length thresh).map
      (fun k => (nms boxes scores n thresh).getD k 0)
    = nms boxes scores n thresh := by
  set K := nms boxes scores n thresh with hK
  have hsubl : K.Sublist (List.insertionSort (scoreDesc scores) (List.range n)) := by
    rw [hK]
    exact nmsKeep_sublist boxes thresh n _
  have hsorted : K.Pairwise (scoreDesc scores) :=
    List.Pairwise.sublist hsubl
      (List.sorted_insertionSort (scoreDesc scores) (List.range n))
  have hpw : K.Pairwise (fun i j => iouLt (boxes i) (boxes j) thresh = true) := by
    rw [hK]
    exact nmsKeep_pairwise boxes thresh n _
  have hsorted2 : List.Sorted (scoreDesc fun k => scores (K.getD k 0))
      (List.range K.length) := by
    rw [List.Sorted, List.pairwise_iff_get]
    intro i j hij
    rw [List.get_range, List.get_range]
    have hi' : (i : ℕ) < K.length := by simpa using i.isLt
    have hj' : (j : ℕ) < K.length := by simpa using j.isLt
    show scores (K.getD (j : ℕ) 0) ≤ scores (K.getD (i : ℕ) 0)
    rw [listGetD_eq_get K 0 _ hi', listGetD_eq_get K 0 _ hj']
    exact List.pairwise_iff_get.mp hsorted ⟨(i : ℕ), hi'⟩ ⟨(j : ℕ), hj'⟩ (by simpa using hij)
  have hpw2 : (List.range K.length).Pairwise
      (fun a b => iouLt (boxes (K.getD a 0)) (boxes (K.getD b 0)) thresh = true) := by
    rw [List.pairwise_iff_get]
    intro i j hij
    rw [List.get_range, List.get_range]
    have hi' : (i : ℕ) < K.length := by simpa using i.isLt
    have hj' : (j : ℕ) < K.length := by simpa using j.isLt
    rw [listGetD_eq_get K 0 _ hi', listGetD_eq_get K 0 _ hj']
    exact List.pairwise_iff_get.mp hpw ⟨(i : ℕ), hi'⟩ ⟨(j : ℕ), hj'⟩ (by simpa using hij)
  have hrun2 : nms (fun k => boxes (K.getD k 0)) (fun k => scores (K.getD k 0))
      K.length thresh = List.range K.length := by
    rw [nms, List.Sorted.insertionSort_eq hsorted2]
    exact nmsKeep_of_pairwise _ thresh K.length _ (by simp) hpw2
  rw [hrun2]
  apply List.ext_get
  · simp
  · intro m h1 h2
    rw [List.get_map]
    have hm : m < K.length := by simpa using h2
    have : (List.range K.length).get ⟨m, by simpa using hm⟩ = m := List.get_range m _
    rw [this]
    exact listGetD_eq_get K 0 m hm
